import Mathlib

/-!
Verification of the torudo navigation/synchronization engine.

Strings are modelled as `List Char` (the Rust code operates on UTF-8 `&str`;
all indices relevant to the verified claims fall on ASCII characters, where
byte indices and character indices coincide).  Filesystem reads/writes are
modelled by passing file contents in and out of the pure functions; a
function that performs no write returns its input content unchanged.
-/

namespace Torudo

/-- Whitespace test used by `split_whitespace`, `trim` and `trim_start`.
Lean's `Char.isWhitespace` covers the ASCII whitespace characters exercised
by the repository's data (space, tab, CR, LF). -/
def isWs (c : Char) : Bool := c.isWhitespace

/-- Accumulator-based splitter: models Rust `str::split_whitespace`
(maximal runs of non-whitespace characters, no empty tokens). -/
def splitWsAux : List Char → List Char → List (List Char)
  | [], acc => if acc = [] then [] else [acc.reverse]
  | c :: cs, acc =>
    if isWs c then
      if acc = [] then splitWsAux cs [] else acc.reverse :: splitWsAux cs []
    else splitWsAux cs (c :: acc)

/-- Models Rust `line.split_whitespace()` as a list of tokens. -/
def splitWs (l : List Char) : List (List Char) := splitWsAux l []

/-- Models Rust `line.trim_start()`. -/
def trimStart (l : List Char) : List Char := l.dropWhile isWs

/-- Models Rust `line.trim().is_empty()`: a line is blank iff every
character is whitespace. -/
def isBlank (l : List Char) : Bool := l.all isWs

/-- Calendar date, the payload of chrono's `NaiveDate` as used here. -/
structure Date where
  y : Nat
  m : Nat
  d : Nat
  deriving DecidableEq, Repr

/-- Gregorian leap-year rule (chrono validates real calendar dates). -/
def isLeap (y : Nat) : Bool := (y % 4 = 0 && y % 100 ≠ 0) || y % 400 = 0

/-- Number of days in a month, Gregorian calendar. -/
def daysInMonth (y m : Nat) : Nat :=
  if m = 2 then (if isLeap y then 29 else 28)
  else if m = 4 || m = 6 || m = 9 || m = 11 then 30
  else 31

/-- Numeric value of a decimal digit character. -/
def digitVal (c : Char) : Nat := c.toNat - 48

/-- Models `NaiveDate::parse_from_str(s, "%Y-%m-%d")` on the zero-padded
ISO form the repository's data uses: four year digits, two month digits,
two day digits, the whole token consumed, and the date must be a real
calendar date.  Any token whose first character is not a decimal digit is
rejected, exactly as chrono rejects it. -/
def parseDate (s : List Char) : Option Date :=
  match s with
  | [y1, y2, y3, y4, h1, m1, m2, h2, d1, d2] =>
    if h1 = '-' && h2 = '-' && y1.isDigit && y2.isDigit && y3.isDigit && y4.isDigit
        && m1.isDigit && m2.isDigit && d1.isDigit && d2.isDigit then
      let y := ((digitVal y1 * 10 + digitVal y2) * 10 + digitVal y3) * 10 + digitVal y4
      let m := digitVal m1 * 10 + digitVal m2
      let d := digitVal d1 * 10 + digitVal d2
      if 1 ≤ m && m ≤ 12 && 1 ≤ d && d ≤ daysInMonth y m then some ⟨y, m, d⟩ else none
    else none
  | _ => none

/-- One task record, mirroring `struct Item` in src/todo.rs. -/
structure Item where
  completed : Bool
  priority : Option Char
  creation_date : Option Date
  completion_date : Option Date
  description : List Char
  projects : List (List Char)
  contexts : List (List Char)
  id : Option (List Char)
  line_number : Nat
  deriving DecidableEq, Repr

/-- The completion-marker token. -/
def xTok : List Char := ['x']

/-- Step 1 of `Item::parse`: consume a leading completion marker and an
optional completion date; returns (completed, completion_date, rest). -/
def parseX : List (List Char) → Bool × Option Date × List (List Char)
  | [] => (false, none, [])
  | t :: ts =>
    if t = xTok then
      match ts with
      | [] => (true, none, [])
      | d :: ds =>
        match parseDate d with
        | some dd => (true, some dd, ds)
        | none => (true, none, d :: ds)
    else (false, none, t :: ts)

/-- Priority-token test of `Item::parse`: a 3-byte token `(X)` with `X`
ASCII uppercase (for a 3-byte token with parentheses at both ends the
middle is one ASCII character, so the char-level pattern is equivalent). -/
def priOf (t : List Char) : Option Char :=
  match t with
  | [a, c, b] => if a = '(' && b = ')' && c.isUpper then some c else none
  | _ => none

/-- Step 2 of `Item::parse`: consume a priority token. -/
def parsePri : List (List Char) → Option Char × List (List Char)
  | [] => (none, [])
  | t :: ts =>
    match priOf t with
    | some c => (some c, ts)
    | none => (none, t :: ts)

/-- Step 3 of `Item::parse`: consume a creation date. -/
def parseCre : List (List Char) → Option Date × List (List Char)
  | [] => (none, [])
  | t :: ts =>
    match parseDate t with
    | some d => (some d, ts)
    | none => (none, t :: ts)

/-- Accumulator for step 4 of `Item::parse`. -/
structure RestAcc where
  projects : List (List Char)
  contexts : List (List Char)
  id : Option (List Char)
  desc : List (List Char)
  deriving DecidableEq, Repr

/-- Classification of one remaining token, in the source's test order:
`+` project tag, `@` context tag, `id:` identifier, otherwise description. -/
def classifyTok (acc : RestAcc) (t : List Char) : RestAcc :=
  match t with
  | '+' :: s => { acc with projects := acc.projects ++ [s] }
  | '@' :: s => { acc with contexts := acc.contexts ++ [s] }
  | 'i' :: 'd' :: ':' :: s => { acc with id := some s }
  | _ => { acc with desc := acc.desc ++ [t] }

/-- Step 4 of `Item::parse`: fold over the remaining tokens. -/
def parseRest (acc : RestAcc) : List (List Char) → RestAcc
  | [] => acc
  | t :: ts => parseRest (classifyTok acc t) ts

/-- Models `desc_parts.join(" ")`. -/
def joinSp : List (List Char) → List Char
  | [] => []
  | [w] => w
  | w :: ws => w ++ ' ' :: joinSp ws

/-- Token-level body of `Item::parse`, the four steps in source order. -/
def parseToks (toks : List (List Char)) (n : Nat) : Item :=
  let s1 := parseX toks
  let s2 := parsePri s1.2.2
  let s3 := parseCre s2.2
  let r := parseRest ⟨[], [], none, []⟩ s3.2
  { completed := s1.1, priority := s2.1, creation_date := s3.1,
    completion_date := s1.2.1, description := joinSp r.desc,
    projects := r.projects, contexts := r.contexts, id := r.id,
    line_number := n }

/-- Models `Item::parse(line, line_number)` from src/todo.rs. -/
def Item.parse (line : List Char) (n : Nat) : Item := parseToks (splitWs line) n

/-- Split at every newline character; always returns at least one chunk. -/
def splitNl : List Char → List (List Char)
  | [] => [[]]
  | c :: cs =>
    if c = '\n' then [] :: splitNl cs
    else (splitNl cs).modifyHead (fun w => c :: w)

/-- Models Rust `str::lines()`: newline-separated chunks, a final line
ending being optional (the repository's files carry no CR characters). -/
def linesOf (c : List Char) : List (List Char) :=
  if c = [] then []
  else if c.getLast? = some '\n' then (splitNl c).dropLast
  else splitNl c

/-- Models `Vec<String>::join("\n")` / intercalation with a newline. -/
def joinNl : List (List Char) → List Char
  | [] => []
  | [w] => w
  | w :: ws => w ++ '\n' :: joinNl ws

/-- The parsed records of a file content before sorting: enumerate lines
(1-based numbers count blank lines too), drop blank lines, parse the rest.
Mirrors the body of `load_todos`. -/
def parsedItems (c : List Char) : List Item :=
  ((linesOf c).enum.filter (fun p => !isBlank p.2)).map (fun p => Item.parse p.2 (p.1 + 1))

/-- The comparator of `load_todos`' `sort_by`, verbatim: priorities compare
by character code (A < B < C), a priority beats no priority, two
no-priority records compare by line number; then a secondary line-number
comparison.  Rust `char::cmp` is comparison of code points, embedded here
as `Nat` comparison of `Char.toNat`. -/
def itemCmp (a b : Item) : Ordering :=
  (match a.priority, b.priority with
    | some p1, some p2 => compare p1.toNat p2.toNat
    | some _, none => Ordering.lt
    | none, some _ => Ordering.gt
    | none, none => compare a.line_number b.line_number).then
    (compare a.line_number b.line_number)

/-- Non-strict order induced by the comparator. -/
def itemLe (a b : Item) : Prop := itemCmp a b ≠ Ordering.gt

instance : DecidableRel itemLe := fun a b => by unfold itemLe; infer_instance

/-- Models `load_todos` on a file content: parse, then stable-sort by the
comparator.  Rust's `sort_by` is a stable sort; since the comparator never
ties two records with distinct line numbers and `load` assigns distinct
line numbers, the sorted output is unique, so insertion sort (also stable)
yields the same list. -/
def loadTodos (c : List Char) : List Item := List.insertionSort itemLe (parsedItems c)

/-- Sort key of a priority: code point, with no-priority above every
character (`0x110000` exceeds every Unicode scalar value). -/
def priKey : Option Char → Nat
  | some c => c.toNat
  | none => 1114112

/-- The ordering the spec claims for `load`: strictly smaller priority
class first (A < B < ... < none), ties broken by ascending line number. -/
def claimOrder (a b : Item) : Prop :=
  priKey a.priority < priKey b.priority ∨
    (priKey a.priority = priKey b.priority ∧ a.line_number ≤ b.line_number)

/-- Result of `mark_complete`: primary content, done-file content (an
absent done file reads as the empty content), and whether a record was
moved (i.e. whether any write happened; without a move both files are
left untouched and the call still succeeds). -/
structure MarkResult where
  todoContent : List Char
  doneContent : List Char
  moved : Bool
  deriving DecidableEq, Repr

/-- The priority test of `mark_complete`, verbatim from the source:
`line.starts_with('(') && line.len() >= 4 && line.chars().nth(2) == Some(')')`
(on the ASCII prefixes the claims exercise, byte and char indices agree). -/
def startsPri (l : List Char) : Bool :=
  match l with
  | '(' :: _ :: ')' :: _ :: _ => true
  | _ => false

/-- Synthesis of the done line for a not-yet-completed matched line:
`x {pri} {today} {rest}` when the priority test passes (`pri` being the
first three characters and `rest` the remainder with leading whitespace
trimmed), `x {today} {line}` otherwise. -/
def completeLine (l today : List Char) : List Char :=
  if startsPri l then
    'x' :: ' ' :: (l.take 3 ++ ' ' :: (today ++ ' ' :: trimStart (l.drop 3)))
  else
    'x' :: ' ' :: (today ++ ' ' :: l)

/-- One iteration of `mark_complete`'s line loop: state is (kept lines,
synthesized done line so far); a blank line is kept, a line whose parsed
identifier equals the target is removed and synthesized (kept verbatim if
already completed), any other line is kept. -/
def mcStep (target today : List Char) (st : List (List Char) × Option (List Char))
    (p : Nat × List Char) : List (List Char) × Option (List Char) :=
  if isBlank p.2 then (st.1 ++ [p.2], st.2)
  else
    let todo := Item.parse p.2 (p.1 + 1)
    match todo.id with
    | some i =>
      if i = target then
        (st.1, some (if todo.completed then p.2 else completeLine p.2 today))
      else (st.1 ++ [p.2], st.2)
    | none => (st.1 ++ [p.2], st.2)

/-- Models `mark_complete(todo_file, todo_id)` as a pure function of the
two file contents and today's date string: when a line matched, the done
content gains a separating newline (only if the existing content is
non-empty and does not already end in one) followed by the synthesized
line and a newline, and the primary file is rewritten without the matched
line; when nothing matched, no write happens and the call succeeds. -/
def markComplete (content done target today : List Char) : MarkResult :=
  let r := ((linesOf content).enum).foldl (mcStep target today) ([], none)
  match r.2 with
  | some cl =>
    let done1 := if done ≠ [] ∧ done.getLast? ≠ some '\n' then done ++ ['\n'] else done
    ⟨joinNl r.1, done1 ++ cl ++ ['\n'], true⟩
  | none => ⟨content, done, false⟩

/-- The identifier-tag key. -/
def idKey : List Char := ['i', 'd', ':']

/-- The line rewrite of `add_missing_ids` for one line: blank lines and
lines whose parse already yields an identifier are kept byte-for-byte;
a line without one gets ` id:{fresh}` appended (`gen` supplies the fresh
token generated for the line at that 0-based index). -/
def amLine (gen : Nat → List Char) (p : Nat × List Char) : List Char :=
  if isBlank p.2 then p.2
  else if (Item.parse p.2 (p.1 + 1)).id = none then p.2 ++ ' ' :: (idKey ++ gen p.1)
  else p.2

/-- Whether `add_missing_ids` changes the line at `p`. -/
def amChanges (p : Nat × List Char) : Bool :=
  !isBlank p.2 && (Item.parse p.2 (p.1 + 1)).id = none

/-- One iteration of `add_missing_ids`' line loop: state is (new lines,
modified flag); a blank line is pushed unchanged, a line parsing without
an identifier is pushed with ` id:{fresh}` appended and the flag set,
any other line is pushed unchanged. -/
def amStep (gen : Nat → List Char) (st : List (List Char) × Bool)
    (p : Nat × List Char) : List (List Char) × Bool :=
  if isBlank p.2 then (st.1 ++ [p.2], st.2)
  else if (Item.parse p.2 (p.1 + 1)).id = none then
    (st.1 ++ [p.2 ++ ' ' :: (idKey ++ gen p.1)], true)
  else (st.1 ++ [p.2], st.2)

/-- Models `add_missing_ids` as a pure function of the file content and
the generator of fresh identifiers: returns the file content after the
call together with the `modified` flag; the file is rewritten (with the
lines rejoined by newlines) only when at least one line changed. -/
def addMissingIds (gen : Nat → List Char) (content : List Char) : List Char × Bool :=
  let r := ((linesOf content).enum).foldl (amStep gen) ([], false)
  if r.2 then (joinNl r.1, true) else (content, false)

/-- The synthetic group name for records without project tags. -/
def noProject : List Char := ['N', 'o', ' ', 'P', 'r', 'o', 'j', 'e', 'c', 't']

/-- The group names one record contributes to: its project tags, or the
synthetic "No Project" name when it has none. -/
def effTags (t : Item) : List (List Char) :=
  if t.projects = [] then [noProject] else t.projects

/-- The ordered list a group name maps to in `group_todos_by_project_owned`:
records in iteration order, each pushed once per occurrence of the name
among its effective tags. -/
def groupOf (todos : List Item) (nm : List Char) : List Item :=
  (todos.map (fun t => ((effTags t).filter (fun p => p = nm)).map (fun _ => t))).flatten

/-- The distinct keys of the grouping map (first-occurrence order; the map
itself is unordered, every use below sorts or looks up). -/
def groupNames (todos : List Item) : List (List Char) :=
  ((todos.map effTags).flatten).dedup

/-- Byte-lexicographic comparison of strings, Rust `String`'s `Ord`. -/
def strLe : List Char → List Char → Bool
  | [], _ => true
  | _ :: _, [] => false
  | a :: as, b :: bs => if a = b then strLe as bs else decide (a.toNat < b.toNat)

/-- Models `grouped_todos.keys().cloned().collect()` followed by `sort()`:
the distinct group names in byte-lexicographic order (sorting makes the
hash map's arbitrary iteration order immaterial). -/
def sortedNames (todos : List Item) : List (List Char) :=
  List.insertionSort (fun a b => strLe a b = true) (groupNames todos)

/-- Association-list model of the `HashMap<String, Vec<Item>>` built by
`group_todos_by_project_owned`. -/
def groupedAssocOf (todos : List Item) : List (List Char × List Item) :=
  (groupNames todos).map (fun nm => (nm, groupOf todos nm))

/-- Models `HashMap::get` on the association list. -/
def lookupGroup (g : List (List Char × List Item)) (nm : List Char) :
    Option (List Item) :=
  (g.find? (fun p => p.1 = nm)).map (fun p => p.2)

/-- The navigation state of `AppState`, restricted to the fields the
selection machine reads and writes (socket path, logging and the shared
monitor handle live outside the verified core; the monitor session list is
irrelevant to the `h`-key and reconciliation paths modelled here). -/
structure NavState where
  todos : List Item
  projectNames : List (List Char)
  grouped : List (List Char × List Item)
  currentColumn : Nat
  selectedInColumn : Nat
  claudeEnabled : Bool
  claudeSelectedIndex : Nat
  previewActive : Bool
  terminalChannel : Option Int
  lastPreviewUpdate : Option Nat
  deriving DecidableEq, Repr

/-- Models `AppState::total_columns`. -/
def totalColumns (s : NavState) : Nat :=
  s.projectNames.length + (if s.claudeEnabled then 1 else 0)

/-- Models `AppState::is_on_claude_column`. -/
def isOnClaudeColumn (s : NavState) : Bool :=
  s.claudeEnabled && s.currentColumn = s.projectNames.length

/-- Models `AppState::get_current_todo_id`: the identifier of the record
under the selection, or `none` anywhere along the option chain. -/
def getCurrentTodoId (s : NavState) : Option (List Char) :=
  match s.projectNames.get? s.currentColumn with
  | none => none
  | some nm =>
    match lookupGroup s.grouped nm with
    | none => none
    | some col =>
      match col.get? s.selectedInColumn with
      | none => none
      | some t => t.id

/-- First phase of `AppState::update_derived_state`: rebuild the grouping
map and the sorted project-name list from the current records. -/
def rebuildDerived (s : NavState) : NavState :=
  { s with grouped := groupedAssocOf s.todos,
           projectNames := sortedNames s.todos }

/-- Second phase of `update_derived_state`: clamp `current_column` with
`total_columns().saturating_sub(1)` when it is out of range. -/
def clampColumn (s : NavState) : NavState :=
  if totalColumns s ≤ s.currentColumn then
    { s with currentColumn := totalColumns s - 1 }
  else s

/-- Third phase of `update_derived_state`, the `if let` chain: when the
active column is an ordinary record column, clamp `selected_in_column`
and report the focus RPC target (the selected record's identifier, when
it has one); every lookup is an option chain, so the function is total
and no out-of-bounds access is possible. -/
def selectFocus (s : NavState) : NavState × Option (List Char) :=
  match s.projectNames.get? s.currentColumn with
  | none => (s, none)
  | some nm =>
    match lookupGroup s.grouped nm with
    | none => (s, none)
    | some col =>
      let s3 := if col.length ≤ s.selectedInColumn then
          { s with selectedInColumn := col.length - 1 }
        else s
      match col.get? s3.selectedInColumn with
      | none => (s3, none)
      | some t => (s3, t.id)

/-- Models `AppState::update_derived_state` as its three sequential
phases. -/
def updateDerivedState (s : NavState) : NavState × Option (List Char) :=
  selectFocus (clampColumn (rebuildDerived s))

/-- Models `AppState::leave_preview_mode`: tear the preview down, then
issue a focus call for the record now under selection (when it carries an
identifier). -/
def leavePreviewMode (s : NavState) : NavState × Option (List Char) :=
  let s1 := { s with previewActive := false, lastPreviewUpdate := none,
                     terminalChannel := none }
  (s1, getCurrentTodoId s1)

/-- Models the `'h'` (prev-column) arm of `AppState::handle_navigation_key`.
The second component is the focus RPC target issued by the move, `none`
when no focus call happens. -/
def handleNavH (s : NavState) : NavState × Option (List Char) :=
  if 0 < s.currentColumn then
    let wasOnClaude := isOnClaudeColumn s
    let s1 := { s with currentColumn := s.currentColumn - 1 }
    if isOnClaudeColumn s1 then
      ({ s1 with claudeSelectedIndex := 0 }, none)
    else if wasOnClaude && s1.previewActive then
      leavePreviewMode s1
    else
      let s2 := { s1 with selectedInColumn := 0 }
      (s2, getCurrentTodoId s2)
  else (s, none)

/-- Kinds of filesystem notifications, as `notify::EventKind` is matched
by the reconciler: only modification events flag a reload. -/
inductive FsKind where
  | modify
  | create
  | remove
  | other
  deriving DecidableEq, Repr

/-- One filesystem notification: the file names of its paths (the
reconciler compares `path.file_name()` against the tracked file's name)
and its kind. -/
structure FsEvent where
  fileNames : List (List Char)
  kind : FsKind
  deriving DecidableEq, Repr

/-- Whether one drained event flags a reload: some path matches the
tracked file name and the kind is a modification. -/
def flagsReload (todoName : List Char) (e : FsEvent) : Bool :=
  (e.fileNames.any (fun n => n = todoName)) && e.kind = FsKind.modify

/-- The debounce interval of the reconciler, in milliseconds. -/
def debounceMs : Nat := 200

/-- Models one call of `EventHandler::handle_file_watcher_events` (one
polling tick): drain the batch, flag a reload if any drained event is a
modification of the tracked file, and perform it only when no reload has
ever been performed or at least the debounce interval has elapsed since
the last performed one.  The state is the handler's only persistent field,
`last_reload_time`; the returned `Bool` says whether a reload was
performed this tick.  `now` is the tick's `Instant::now()` in
milliseconds. -/
def handleFileWatcherEvents (lastReloadTime : Option Nat)
    (events : List FsEvent) (todoName : List Char) (now : Nat) :
    Option Nat × Bool :=
  let shouldReload := events.any (flagsReload todoName)
  if shouldReload then
    let perform :=
      match lastReloadTime with
      | none => true
      | some t => debounceMs ≤ now - t
    if perform then (some now, true) else (lastReloadTime, false)
  else (lastReloadTime, false)

/-- Whether the line at an enumerated position is the one `mark_complete`
removes: non-blank and parsing to the target identifier. -/
def mcMatches (target : List Char) (p : Nat × List Char) : Bool :=
  !isBlank p.2 && decide ((Item.parse p.2 (p.1 + 1)).id = some target)

/-- The separator `mark_complete` inserts before the appended done line:
one newline exactly when the existing done content is non-empty and does
not already end in one. -/
def doneSep (done : List Char) : Bool :=
  !decide (done = []) && !decide (done.getLast? = some '\n')

/-- Whether a string ends in exactly one newline (its last character is a
newline and the character before it, if any, is not). -/
def endsOneNl (l : List Char) : Bool :=
  decide (l.getLast? = some '\n') && !decide (l.dropLast.getLast? = some '\n')

/-- Whether a string contains two consecutive newlines anywhere, i.e.
whether it contains a blank-line separator. -/
def hasConsecNl : List Char → Bool
  | '\n' :: '\n' :: _ => true
  | _ :: t => hasConsecNl t
  | [] => false

/-! ## Concrete inputs used by counterexamples and witnesses -/

/-- A completed line whose token after the marker has the `(X)` form. -/
def exLineC1 : List Char := "x (B) task".toList

/-- The mark-complete field-order example line from the spec. -/
def exLineC2 : List Char := "(A) 2024-01-10 Call Mom +family id:x".toList

/-- A concrete completion day used by witnesses. -/
def exToday : List Char := "2024-05-06".toList

/-- The identifier of `exLineC2`. -/
def exTargetC2 : List Char := "x".toList

/-- A one-line primary file whose single record matches `exTargetC3`. -/
def exContentC3 : List Char := "t id:z".toList

/-- A pre-existing done-file content that already ends in a newline. -/
def exDoneC3 : List Char := "a\n".toList

/-- The identifier of the record in `exContentC3`. -/
def exTargetC3 : List Char := "z".toList

/-- The load-ordering example content from the spec. -/
def exContentC5 : List Char := "(B) t2\n(A) t1\nt3".toList

/-- A two-record primary file for the unknown-identifier no-op claim. -/
def exContentC7 : List Char := "a id:q\nb id:r".toList

/-- A done-file content left untouched by the no-op call. -/
def exDoneC7 : List Char := "old\n".toList

/-- An identifier matching no line of `exContentC7`. -/
def exTargetC7 : List Char := "zz".toList

/-- Content with a line missing an identifier, a blank line, and a line
already carrying one. -/
def exContentC8 : List Char := "(A) a\n\nb id:e".toList

/-- A whitespace-free identifier supply for the first run. -/
def exGen1 : Nat → List Char := fun _ => "u1".toList

/-- A whitespace-free identifier supply for the second run. -/
def exGen2 : Nat → List Char := fun _ => "v2".toList

/-- A line whose parenthesised first token is not an uppercase priority. -/
def exLineC10 : List Char := "(a) task id:t".toList

/-- The identifier of `exLineC10`. -/
def exTargetC10 : List Char := "t".toList

/-- A record used to build concrete navigation states. -/
def exItemWork : Item :=
  { completed := false, priority := some 'A', creation_date := none,
    completion_date := none, description := "Task 1".toList,
    projects := ["work".toList], contexts := [],
    id := some "task-1".toList, line_number := 1 }

/-- A navigation state with dangling indices, for the clamping witness. -/
def exNavC4 : NavState :=
  { todos := [exItemWork], projectNames := [], grouped := [],
    currentColumn := 999, selectedInColumn := 999, claudeEnabled := false,
    claudeSelectedIndex := 0, previewActive := false,
    terminalChannel := none, lastPreviewUpdate := none }

/-- The group name of `exItemWork`. -/
def exNameWork : List Char := "work".toList

/-- A state on the monitor column with an active preview and a non-zero
remembered row, about to move left into the single project column. -/
def exNavC9 : NavState :=
  { todos := [exItemWork], projectNames := [exNameWork],
    grouped := [(exNameWork, [exItemWork])], currentColumn := 1,
    selectedInColumn := 1, claudeEnabled := true, claudeSelectedIndex := 0,
    previewActive := true, terminalChannel := some 3,
    lastPreviewUpdate := some 5 }

/-- A state in the second of two ordinary columns, for the amended
prev-column witness. -/
def exNavC9w : NavState :=
  { todos := [exItemWork], projectNames := [exNameWork, noProject],
    grouped := [(exNameWork, [exItemWork]), (noProject, [exItemWork])],
    currentColumn := 1, selectedInColumn := 1, claudeEnabled := false,
    claudeSelectedIndex := 0, previewActive := false,
    terminalChannel := none, lastPreviewUpdate := none }

/-- The tracked file name of the reconciler examples. -/
def exTodoName : List Char := "todo.txt".toList

/-- A modification event on the tracked file. -/
def exModEvent : FsEvent := ⟨[exTodoName], FsKind.modify⟩

/-! ## Basic lemmas about line splitting and joining -/

theorem splitNl_ne_nil (c : List Char) : splitNl c ≠ [] := by
  induction c with
  | nil => simp [splitNl]
  | cons a cs ih =>
    simp only [splitNl]
    split
    · simp
    · cases h : splitNl cs with
      | nil => exact absurd h ih
      | cons w ws => simp [List.modifyHead]

theorem splitNl_of_not_mem_nl {l : List Char} (h : '\n' ∉ l) : splitNl l = [l] := by
  induction l with
  | nil => rfl
  | cons a cs ih =>
    have ha : a ≠ '\n' := fun hc => h (hc ▸ List.mem_cons_self a cs)
    have := ih (fun hc => h (List.mem_cons_of_mem a hc))
    simp [splitNl, ha, this, List.modifyHead]

theorem mem_splitNl_not_nl {c : List Char} {w : List Char}
    (hw : w ∈ splitNl c) : '\n' ∉ w := by
  induction c generalizing w with
  | nil =>
    simp [splitNl] at hw
    simp [hw]
  | cons a cs ih =>
    simp only [splitNl] at hw
    by_cases ha : a = '\n'
    · simp [ha] at hw
      rcases hw with h | h
      · simp [h]
      · exact ih h
    · simp only [if_neg ha] at hw
      cases h : splitNl cs with
      | nil => exact absurd h (splitNl_ne_nil cs)
      | cons v vs =>
        rw [h] at hw
        simp [List.modifyHead] at hw
        rcases hw with h1 | h1
        · subst h1
          intro hmem
          rcases List.mem_cons.mp hmem with h2 | h2
          · exact ha h2.symm
          · exact ih (h ▸ List.mem_cons_self v vs) h2
        · exact ih (h ▸ List.mem_cons_of_mem v h1)

theorem mem_linesOf_not_nl {c w : List Char} (hw : w ∈ linesOf c) : '\n' ∉ w := by
  unfold linesOf at hw
  split at hw
  · simp at hw
  · split at hw
    · exact mem_splitNl_not_nl (List.dropLast_subset _ hw)
    · exact mem_splitNl_not_nl hw

theorem linesOf_single {l : List Char} (hne : l ≠ []) (h : '\n' ∉ l) :
    linesOf l = [l] := by
  have hlast : l.getLast? ≠ some '\n' := by
    intro hc
    exact h (List.mem_of_mem_getLast? hc)
  unfold linesOf
  simp [hne, hlast, splitNl_of_not_mem_nl h]

theorem splitNl_append_nl {w : List Char} (hw : '\n' ∉ w) (t : List Char) :
    splitNl (w ++ '\n' :: t) = w :: splitNl t := by
  induction w with
  | nil => simp [splitNl]
  | cons a cs ih =>
    have ha : a ≠ '\n' := fun hc => hw (hc ▸ List.mem_cons_self a cs)
    have := ih (fun hc => hw (List.mem_cons_of_mem a hc))
    simp [splitNl, ha, this, List.modifyHead]

theorem splitNl_joinNl {L : List (List Char)} (hL : L ≠ [])
    (hw : ∀ w ∈ L, '\n' ∉ w) : splitNl (joinNl L) = L := by
  induction L with
  | nil => exact absurd rfl hL
  | cons w ws ih =>
    cases ws with
    | nil => exact splitNl_of_not_mem_nl (hw w (List.mem_cons_self w []))
    | cons v vs =>
      have h1 : joinNl (w :: v :: vs) = w ++ '\n' :: joinNl (v :: vs) := rfl
      rw [h1, splitNl_append_nl (hw w (List.mem_cons_self w _))]
      rw [ih (by simp) (fun u hu => hw u (List.mem_cons_of_mem w hu))]

theorem mem_linesOf_joinNl {L : List (List Char)} {l : List Char}
    (hw : ∀ w ∈ L, '\n' ∉ w) (hl : l ∈ linesOf (joinNl L)) : l ∈ L := by
  by_cases hL : L = []
  · subst hL
    simp [joinNl, linesOf] at hl
  · unfold linesOf at hl
    split at hl
    · simp at hl
    · rw [splitNl_joinNl hL hw] at hl
      split at hl
      · exact List.dropLast_subset _ hl
      · exact hl

/-! ## Lemmas about tokenisation and the parser -/

theorem splitWsAux_word {w : List Char} (hw : ∀ c ∈ w, isWs c = false) :
    ∀ acc : List Char, splitWsAux w acc =
      if acc.reverse ++ w = [] then [] else [acc.reverse ++ w] := by
  induction w with
  | nil =>
    intro acc
    simp only [splitWsAux, List.append_nil]
    by_cases h : acc = [] <;> simp [h]
  | cons c cs ih =>
    intro acc
    have hc : isWs c = false := hw c (List.mem_cons_self c cs)
    have ih2 := ih (fun d hd => hw d (List.mem_cons_of_mem c hd)) (c :: acc)
    simp only [splitWsAux, hc, Bool.false_eq_true, if_false, ih2, List.reverse_cons]
    simp

theorem splitWsAux_append_tok {w : List Char} (hw : ∀ c ∈ w, isWs c = false)
    (hne : w ≠ []) :
    ∀ (l acc : List Char), splitWsAux (l ++ ' ' :: w) acc = splitWsAux l acc ++ [w] := by
  intro l
  induction l with
  | nil =>
    intro acc
    have hsp : isWs ' ' = true := by decide
    have hword := splitWsAux_word hw ([] : List Char)
    simp only [List.nil_append, splitWsAux, hsp, if_true]
    by_cases h : acc = []
    · simp [h, hword, hne]
    · simp [h, hword, hne]
  | cons c cs ih =>
    intro acc
    by_cases hc : isWs c
    · by_cases h : acc = [] <;>
        simp [splitWsAux, hc, h, ih]
    · simp [splitWsAux, hc, ih]

theorem splitWs_append_tok {l w : List Char} (hw : ∀ c ∈ w, isWs c = false)
    (hne : w ≠ []) : splitWs (l ++ ' ' :: w) = splitWs l ++ [w] :=
  splitWsAux_append_tok hw hne l []

theorem parseDate_cons_nondigit {c : Char} (hc : c.isDigit = false)
    (s : List Char) : parseDate (c :: s) = none := by
  unfold parseDate
  split
  · rename_i y1 y2 y3 y4 h1 m1 m2 h2 d1 d2 heq
    have : y1 = c := (List.cons.injEq _ _ _ _ ▸ heq).1.symm
    subst this
    simp [hc]
  · rfl

theorem priOf_cons_ne_paren {c : Char} (hc : c ≠ '(') (s : List Char) :
    priOf (c :: s) = none := by
  unfold priOf
  split
  · rename_i a b d heq
    have : a = c := (List.cons.injEq _ _ _ _ ▸ heq).1.symm
    subst this
    simp [hc]
  · rfl

theorem parseX_append {t : List Char} (ht1 : t ≠ xTok) (ht2 : parseDate t = none)
    (ts : List (List Char)) :
    parseX (ts ++ [t]) =
      ((parseX ts).1, (parseX ts).2.1, (parseX ts).2.2 ++ [t]) := by
  match ts with
  | [] => simp [parseX, ht1, ht2]
  | a :: ts' =>
    by_cases ha : a = xTok
    · subst ha
      match ts' with
      | [] => simp [parseX, ht2]
      | d :: ds =>
        simp only [List.cons_append, parseX, if_pos rfl]
        cases hd : parseDate d <;> simp
    · simp [parseX, ha]

theorem parsePri_append {t : List Char} (ht : priOf t = none)
    (ts : List (List Char)) :
    parsePri (ts ++ [t]) = ((parsePri ts).1, (parsePri ts).2 ++ [t]) := by
  match ts with
  | [] => simp [parsePri, ht]
  | a :: ts' =>
    simp only [List.cons_append, parsePri]
    cases ha : priOf a <;> simp

theorem parseCre_append {t : List Char} (ht : parseDate t = none)
    (ts : List (List Char)) :
    parseCre (ts ++ [t]) = ((parseCre ts).1, (parseCre ts).2 ++ [t]) := by
  match ts with
  | [] => simp [parseCre, ht]
  | a :: ts' =>
    simp only [List.cons_append, parseCre]
    cases ha : parseDate a <;> simp

theorem parseRest_append_id (g : List Char) :
    ∀ (ts : List (List Char)) (acc : RestAcc),
      (parseRest acc (ts ++ ['i' :: 'd' :: ':' :: g])).id = some g := by
  intro ts
  induction ts with
  | nil =>
    intro acc
    simp [parseRest, classifyTok]
  | cons t ts' ih =>
    intro acc
    simp only [List.cons_append, parseRest]
    exact ih _

theorem parseToks_append_id (g : List Char) (ts : List (List Char)) (n : Nat) :
    (parseToks (ts ++ ['i' :: 'd' :: ':' :: g]) n).id = some g := by
  have hx : ('i' :: 'd' :: ':' :: g) ≠ xTok := by
    intro h
    have := (List.cons.injEq _ _ _ _ ▸ h).1
    exact absurd this (by decide)
  have hdate : parseDate ('i' :: 'd' :: ':' :: g) = none :=
    parseDate_cons_nondigit (by decide) _
  have hpri : priOf ('i' :: 'd' :: ':' :: g) = none :=
    priOf_cons_ne_paren (by decide) _
  unfold parseToks
  simp only [parseX_append hx hdate, parsePri_append hpri, parseCre_append hdate]
  exact parseRest_append_id g _ _

theorem parse_append_id {g : List Char} (hg : ∀ c ∈ g, isWs c = false)
    (l : List Char) (n : Nat) :
    (Item.parse (l ++ ' ' :: (idKey ++ g)) n).id = some g := by
  have hw : ∀ c ∈ idKey ++ g, isWs c = false := by
    intro c hc
    rcases List.mem_append.mp hc with h | h
    · fin_cases h <;> decide
    · exact hg c h
  have hne : idKey ++ g ≠ [] := by simp [idKey]
  unfold Item.parse
  rw [splitWs_append_tok hw hne]
  have : idKey ++ g = 'i' :: 'd' :: ':' :: g := rfl
  rw [this]
  exact parseToks_append_id g _ n

theorem parse_id_line_number (l : List Char) (n m : Nat) :
    (Item.parse l n).id = (Item.parse l m).id := rfl

/-! ## Lemmas about the mutation folds -/

theorem mcStep_no_match {target : List Char} {p : Nat × List Char}
    (h : mcMatches target p = false) (today : List Char)
    (acc : List (List Char)) (o : Option (List Char)) :
    mcStep target today (acc, o) p = (acc ++ [p.2], o) := by
  unfold mcMatches at h
  unfold mcStep
  by_cases hb : isBlank p.2
  · simp [hb]
  · simp only [hb, Bool.false_eq_true, if_false]
    simp only [hb, Bool.not_false, Bool.true_and, decide_eq_false_iff_not] at h
    cases hid : (Item.parse p.2 (p.1 + 1)).id with
    | none => simp
    | some i =>
      have : ¬ i = target := by
        intro he
        exact h (by rw [hid, he])
      simp [this]

theorem mcFold_no_match {target today : List Char} :
    ∀ (ps : List (Nat × List Char)), (∀ p ∈ ps, mcMatches target p = false) →
      ∀ acc, (ps.foldl (mcStep target today) (acc, none)).2 = none := by
  intro ps
  induction ps with
  | nil => intro _ _; rfl
  | cons p ps' ih =>
    intro h acc
    rw [List.foldl_cons, mcStep_no_match (h p (List.mem_cons_self p ps')) today acc none]
    exact ih (fun q hq => h q (List.mem_cons_of_mem p hq)) _

theorem mcFold_some_src {target today : List Char} {cl : List Char} :
    ∀ (ps : List (Nat × List Char)) (acc : List (List Char))
      (o : Option (List Char)),
      (ps.foldl (mcStep target today) (acc, o)).2 = some cl →
      o = some cl ∨ ∃ p ∈ ps, isBlank p.2 = false ∧
        (cl = p.2 ∨ cl = completeLine p.2 today) := by
  intro ps
  induction ps with
  | nil => intro acc o h; exact Or.inl h
  | cons p ps' ih =>
    intro acc o h
    rw [List.foldl_cons] at h
    unfold mcStep at h
    by_cases hb : isBlank p.2
    · simp only [hb, if_true] at h
      rcases ih _ _ h with h1 | ⟨q, hq, h2⟩
      · exact Or.inl h1
      · exact Or.inr ⟨q, List.mem_cons_of_mem p hq, h2⟩
    · simp only [hb, Bool.false_eq_true, if_false] at h
      cases hid : (Item.parse p.2 (p.1 + 1)).id with
      | none =>
        rw [hid] at h
        simp only at h
        rcases ih _ _ h with h1 | ⟨q, hq, h2⟩
        · exact Or.inl h1
        · exact Or.inr ⟨q, List.mem_cons_of_mem p hq, h2⟩
      | some i =>
        rw [hid] at h
        simp only at h
        by_cases hit : i = target
        · simp only [hit, if_pos rfl] at h
          rcases ih _ _ h with h1 | ⟨q, hq, h2⟩
          · refine Or.inr ⟨p, List.mem_cons_self p ps', by simpa using hb, ?_⟩
            rcases Option.some.injEq _ _ ▸ h1 with h3
            by_cases hc : (Item.parse p.2 (p.1 + 1)).completed
            · left
              simpa [hc] using h3.symm
            · right
              simpa [hc] using h3.symm
          · exact Or.inr ⟨q, List.mem_cons_of_mem p hq, h2⟩
        · simp only [hit, if_false] at h
          rcases ih _ _ h with h1 | ⟨q, hq, h2⟩
          · exact Or.inl h1
          · exact Or.inr ⟨q, List.mem_cons_of_mem p hq, h2⟩

theorem amStep_eq (gen : Nat → List Char) (acc : List (List Char)) (m : Bool)
    (p : Nat × List Char) :
    amStep gen (acc, m) p = (acc ++ [amLine gen p], m || amChanges p) := by
  unfold amStep amLine amChanges
  by_cases hb : isBlank p.2
  · simp [hb]
  · by_cases hid : (Item.parse p.2 (p.1 + 1)).id = none
    · simp [hb, hid]
    · simp [hb, hid]

theorem amFold_eq (gen : Nat → List Char) :
    ∀ (ps : List (Nat × List Char)) (acc : List (List Char)) (m : Bool),
      ps.foldl (amStep gen) (acc, m) =
        (acc ++ ps.map (amLine gen), m || ps.any amChanges) := by
  intro ps
  induction ps with
  | nil => intro acc m; simp
  | cons p ps' ih =>
    intro acc m
    rw [List.foldl_cons, amStep_eq, ih]
    simp [Bool.or_assoc]

/-! ## Claim C1 -/

/-- C1, counterexample: the claim says that once step 1 consumed the
completion marker the priority step is skipped and the parsed priority is
`none`; but on the line `x (B) task` the parser consumes the marker and
still parses priority `some 'B'`. -/
theorem c1_skip_counterexample :
    (Item.parse exLineC1 1).completed = true ∧
      (Item.parse exLineC1 1).priority = some 'B' := by
  exact ⟨rfl, rfl⟩

/-- C1 (amended): the parser does not skip the priority step after a
completion marker: for any input whose tokens start with the marker,
optionally a date, then `(X)` with `X` uppercase, the parsed record is
completed with priority `some X`. -/
theorem c1_priority_after_marker (c : Char) (ts : List (List Char)) (n : Nat)
    (hc : c.isUpper = true) :
    ((parseToks (xTok :: ['(', c, ')'] :: ts) n).completed = true ∧
      (parseToks (xTok :: ['(', c, ')'] :: ts) n).priority = some c) ∧
    ∀ d : List Char, (parseDate d).isSome = true →
      (parseToks (xTok :: d :: ['(', c, ')'] :: ts) n).completed = true ∧
      (parseToks (xTok :: d :: ['(', c, ')'] :: ts) n).priority = some c := by
  have hpd : parseDate ['(', c, ')'] = none :=
    parseDate_cons_nondigit (by decide) _
  have hpri : priOf ['(', c, ')'] = some c := by
    simp [priOf, hc]
  constructor
  · constructor <;> simp [parseToks, parseX, parsePri, hpd, hpri]
  · intro d hd
    obtain ⟨dd, hdd⟩ := Option.isSome_iff_exists.mp hd
    constructor <;> simp [parseToks, parseX, parsePri, hdd, hpd, hpri, xTok]

/-- Witness for `c1_priority_after_marker` at `X = B`, with the concrete
completion date `2024-01-20`. -/
theorem c1_priority_after_marker_witness :
    ('B'.isUpper = true) ∧
      (parseToks (xTok :: ['(', 'B', ')'] :: []) 1).priority = some 'B' ∧
      ((parseDate ("2024-01-20".toList)).isSome = true ∧
        (parseToks (xTok :: ("2024-01-20".toList) :: ['(', 'B', ')'] :: []) 1).priority
          = some 'B') :=
  ⟨by decide, (c1_priority_after_marker 'B' [] 1 (by decide)).1.2,
    by decide,
    ((c1_priority_after_marker 'B' [] 1 (by decide)).2 _ (by decide)).2⟩

/-! ## Claim C7 -/

/-- C7: when the target identifier equals no line's parsed identifier,
`mark_complete` succeeds as a silent no-op: both the primary content and
the done content are returned unchanged and no write is flagged. -/
theorem c7_unknown_id_noop (content done target today : List Char)
    (h : ∀ p ∈ (linesOf content).enum,
      (Item.parse p.2 (p.1 + 1)).id ≠ some target) :
    markComplete content done target today = ⟨content, done, false⟩ := by
  have h2 : ∀ p ∈ (linesOf content).enum, mcMatches target p = false := by
    intro p hp
    unfold mcMatches
    simp [h p hp]
  have h3 := @mcFold_no_match target today _ h2 ([] : List (List Char))
  unfold markComplete
  simp only [h3]

/-- Witness for `c7_unknown_id_noop` on a two-record file and the unknown
identifier `zz`. -/
theorem c7_unknown_id_noop_witness :
    (∀ p ∈ (linesOf exContentC7).enum,
      (Item.parse p.2 (p.1 + 1)).id ≠ some exTargetC7) ∧
    markComplete exContentC7 exDoneC7 exTargetC7 exToday =
      ⟨exContentC7, exDoneC7, false⟩ :=
  ⟨by decide, c7_unknown_id_noop _ _ _ _ (by decide)⟩

/-! ## Claim C10 -/

/-- C10: `mark_complete`'s priority test is laxer than the parser's:
every line whose characters 0 and 2 are `(` and `)` and whose length is at
least 4 is completed by re-inserting its first three characters after the
marker; on `(a) task id:t` the parser sees no priority, yet completion
synthesizes `x (a) {today} task id:t`. -/
theorem c10_lax_priority :
    (∀ l today : List Char, startsPri l = true →
      completeLine l today =
        'x' :: ' ' :: (l.take 3 ++ ' ' :: (today ++ ' ' :: trimStart (l.drop 3))))
    ∧ (Item.parse exLineC10 1).priority = none
    ∧ ∀ today : List Char,
        markComplete exLineC10 [] exTargetC10 today =
          ⟨[], 'x' :: ' ' :: '(' :: 'a' :: ')' :: ' ' ::
            (today ++ ' ' :: ("task id:t\n".toList)), true⟩ := by
  refine ⟨?_, rfl, ?_⟩
  · intro l today h
    unfold completeLine
    rw [if_pos h]
  · intro today
    have h1 : (linesOf exLineC10).enum = [(0, exLineC10)] := rfl
    have hb : isBlank exLineC10 = false := rfl
    have hid : (Item.parse exLineC10 (0 + 1)).id = some exTargetC10 := rfl
    have hcm : (Item.parse exLineC10 (0 + 1)).completed = false := rfl
    have hsp : startsPri exLineC10 = true := rfl
    unfold markComplete
    rw [h1]
    simp only [List.foldl_cons, List.foldl_nil]
    unfold mcStep
    simp only [hb, Bool.false_eq_true, if_false, hid, hcm, if_pos rfl]
    unfold completeLine
    rw [if_pos hsp]
    simp [exLineC10, trimStart]
    exact ⟨rfl, rfl⟩

/-- Witness for `c10_lax_priority`: its first conjunct applied at the
concrete line and day. -/
theorem c10_lax_priority_witness :
    startsPri exLineC10 = true ∧
      completeLine exLineC10 exToday =
        'x' :: ' ' :: (exLineC10.take 3 ++ ' ' ::
          (exToday ++ ' ' :: trimStart (exLineC10.drop 3))) ∧
      (Item.parse exLineC10 1).priority = none :=
  ⟨by decide, c10_lax_priority.1 exLineC10 exToday (by decide),
    c10_lax_priority.2.1⟩

/-! ## Claim C2 -/

theorem isWs_false_of_isUpper {c : Char} (hc : c.isUpper = true) :
    isWs c = false := by
  unfold isWs
  by_contra h
  simp only [Bool.not_eq_false] at h
  have h' : (c = ' ' || c = '\t' || c = '\r' || c = '\n') = true := h
  simp only [Bool.or_eq_true, decide_eq_true_eq] at h'
  rcases h' with ((h2 | h2) | h2) | h2 <;> (subst h2; exact absurd hc (by decide))

theorem splitWs_pri_line {c : Char} (hc : isWs c = false) (rest : List Char) :
    splitWs ('(' :: c :: ')' :: ' ' :: rest) = ['(', c, ')'] :: splitWs rest := by
  have h1 : isWs '(' = false := by decide
  have h2 : isWs ')' = false := by decide
  have h3 : isWs ' ' = true := by decide
  simp [splitWs, splitWsAux, h1, h2, h3, hc]

theorem parse_pri_line_completed {c : Char} (hc : c.isUpper = true)
    (rest : List Char) (n : Nat) :
    (Item.parse ('(' :: c :: ')' :: ' ' :: rest) n).completed = false := by
  unfold Item.parse
  rw [splitWs_pri_line (isWs_false_of_isUpper hc)]
  have hx : ('(' :: c :: ')' :: ([] : List Char)) ≠ xTok := by
    simp [xTok]
  simp [parseToks, parseX, hx]

/-- C2: completing a not-yet-completed line that begins with a priority
token and whose parsed identifier is the target synthesizes the done line
in the order marker, original priority token, today's date, then the rest
of the original line unchanged, and appends it (newline-terminated) to the
done store while removing the line from the primary content. -/
theorem c2_complete_field_order (c : Char) (rest target today : List Char)
    (hc : c.isUpper = true)
    (hnl : '\n' ∉ rest)
    (hnw : trimStart rest = rest)
    (hid : (Item.parse ('(' :: c :: ')' :: ' ' :: rest) 1).id = some target) :
    markComplete ('(' :: c :: ')' :: ' ' :: rest) [] target today =
      ⟨[], ('x' :: ' ' :: '(' :: c :: ')' :: ' ' :: (today ++ ' ' :: rest)) ++ ['\n'],
        true⟩ := by
  have hcn : c ≠ '\n' := by
    intro h
    subst h
    exact absurd hc (by decide)
  have hlnl : '\n' ∉ ('(' :: c :: ')' :: ' ' :: rest) := by
    intro h
    rcases List.mem_cons.mp h with h | h
    · exact absurd h.symm (by decide)
    rcases List.mem_cons.mp h with h | h
    · exact hcn h.symm
    rcases List.mem_cons.mp h with h | h
    · exact absurd h.symm (by decide)
    rcases List.mem_cons.mp h with h | h
    · exact absurd h.symm (by decide)
    · exact hnl h
  have hlines : linesOf ('(' :: c :: ')' :: ' ' :: rest) =
      [('(' :: c :: ')' :: ' ' :: rest)] :=
    linesOf_single (by simp) hlnl
  have hb : isBlank ('(' :: c :: ')' :: ' ' :: rest) = false := by
    have hp : isWs '(' = false := by decide
    simp [isBlank, List.all_cons, hp]
  have hcm := parse_pri_line_completed hc rest 1
  unfold markComplete
  rw [hlines]
  simp only [List.enum, List.enumFrom, List.foldl_cons, List.foldl_nil]
  unfold mcStep
  simp only [hb, Bool.false_eq_true, if_false, Nat.zero_add, hid, hcm, if_pos rfl]
  unfold completeLine
  simp only [startsPri, if_pos rfl]
  have hdrop : trimStart (' ' :: rest) = rest := by
    have h3 : isWs ' ' = true := by decide
    have : trimStart (' ' :: rest) = trimStart rest := by
      simp [trimStart, List.dropWhile_cons, h3]
    rw [this, hnw]
  simp [hdrop, joinNl]

/-! ## Claim C3 -/

theorem completeLine_ne_nil (l today : List Char) :
    completeLine l today ≠ [] := by
  unfold completeLine
  split <;> simp

theorem completeLine_no_nl {l today : List Char} (hl : '\n' ∉ l)
    (ht : '\n' ∉ today) : '\n' ∉ completeLine l today := by
  have h1 : '\n' ∉ l.take 3 := fun h => hl (List.take_subset 3 l h)
  have h2 : '\n' ∉ trimStart (l.drop 3) :=
    fun h => hl (List.drop_subset 3 l ((List.dropWhile_sublist isWs).subset h))
  have hx : ('\n' : Char) ≠ 'x' := by decide
  have hsp : ('\n' : Char) ≠ ' ' := by decide
  unfold completeLine
  split <;>
    simp [List.mem_cons, List.mem_append, h1, h2, ht, hl, hx, hsp]

theorem isBlank_nil : isBlank [] = true := rfl

theorem endsOneNl_of_append {pre cl : List Char} (h1 : cl ≠ [])
    (h2 : '\n' ∉ cl) : endsOneNl (pre ++ cl ++ ['\n']) = true := by
  unfold endsOneNl
  have e1 : ((pre ++ cl) ++ ['\n']).getLast? = some '\n' := List.getLast?_concat _
  have e2 : ((pre ++ cl) ++ ['\n']).dropLast = pre ++ cl := List.dropLast_concat
  have e3 : (pre ++ cl).getLast? = cl.getLast? := List.getLast?_append_of_ne_nil pre h1
  have e4 : cl.getLast? ≠ some '\n' := by
    intro hc
    exact h2 (List.mem_of_mem_getLast? hc)
  rw [List.append_assoc] at e1 e2
  simp [e1, e2, e3, e4]

/-- C3, counterexample: with existing done content `a\n`, moving `t id:z`
produces `a\nx 2024-05-06 t id:z\n` — no two consecutive newlines occur
anywhere, so there is no blank-line separator between the previous content
and the appended record, contradicting the claimed "exactly one blank-line
separator". -/
theorem c3_blank_sep_counterexample :
    (markComplete exContentC3 exDoneC3 exTargetC3 exToday).moved = true ∧
    (markComplete exContentC3 exDoneC3 exTargetC3 exToday).doneContent =
      ("a\nx 2024-05-06 t id:z\n".toList) ∧
    hasConsecNl (markComplete exContentC3 exDoneC3 exTargetC3 exToday).doneContent
      = false := by
  exact ⟨rfl, rfl, rfl⟩

/-- C3 (amended): whenever `mark_complete` moves a line, the new done
content is the old content, a single separating newline (added only when
the old content is non-empty and does not already end in one), the
synthesized line, and a newline; the result ends in exactly one trailing
newline and the separator is a single newline, never a blank line. -/
theorem c3_done_append_format (content done target today : List Char)
    (hnt : '\n' ∉ today)
    (hm : (markComplete content done target today).moved = true) :
    ∃ cl, cl ≠ [] ∧ '\n' ∉ cl ∧
      (markComplete content done target today).doneContent =
        done ++ (if doneSep done then ['\n'] else []) ++ (cl ++ ['\n']) ∧
      endsOneNl (markComplete content done target today).doneContent = true := by
  cases hr : (((linesOf content).enum).foldl (mcStep target today) ([], none)).2 with
  | none =>
    unfold markComplete at hm
    simp only [hr] at hm
    exact absurd hm (by decide)
  | some cl =>
    unfold markComplete
    simp only [hr]
    rcases mcFold_some_src _ _ _ hr with h1 | ⟨p, hp, hnb, hcl⟩
    · exact absurd h1 (by simp)
    · have hpl : '\n' ∉ p.2 :=
        mem_linesOf_not_nl (List.snd_mem_of_mem_enum hp)
      have hcl1 : cl ≠ [] := by
        rcases hcl with h | h
        · subst h
          intro hc
          rw [hc] at hnb
          exact absurd isBlank_nil (by simp [hnb])
        · subst h
          exact completeLine_ne_nil _ _
      have hcl2 : '\n' ∉ cl := by
        rcases hcl with h | h
        · subst h; exact hpl
        · subst h; exact completeLine_no_nl hpl hnt
      refine ⟨cl, hcl1, hcl2, ?_, ?_⟩
      · by_cases hd : done ≠ [] ∧ done.getLast? ≠ some '\n'
        · have hds : doneSep done = true := by
            unfold doneSep
            simp [hd.1, hd.2]
          rw [if_pos hd, hds]
          simp
        · have hds : doneSep done = false := by
            unfold doneSep
            push_neg at hd
            by_cases he : done = []
            · simp [he]
            · simp [he, hd he]
          rw [if_neg hd, hds]
          simp
      · by_cases hd : done ≠ [] ∧ done.getLast? ≠ some '\n'
        · rw [if_pos hd]
          have := @endsOneNl_of_append (done ++ ['\n']) cl hcl1 hcl2
          simpa [List.append_assoc] using this
        · rw [if_neg hd]
          exact endsOneNl_of_append hcl1 hcl2

/-- Witness for `c3_done_append_format` on a one-record file appended to a
done store that already ends in a newline. -/
theorem c3_done_append_format_witness :
    ('\n' ∉ exToday) ∧
    (markComplete exContentC3 exDoneC3 exTargetC3 exToday).moved = true ∧
    ∃ cl, cl ≠ [] ∧ '\n' ∉ cl ∧
      (markComplete exContentC3 exDoneC3 exTargetC3 exToday).doneContent =
        exDoneC3 ++ (if doneSep exDoneC3 then ['\n'] else []) ++ (cl ++ ['\n']) ∧
      endsOneNl (markComplete exContentC3 exDoneC3 exTargetC3 exToday).doneContent
        = true :=
  ⟨by decide, by decide,
    c3_done_append_format exContentC3 exDoneC3 exTargetC3 exToday
      (by decide) (by decide)⟩

/-- Witness for `c2_complete_field_order` on the spec's example line and a
concrete day, showing the done line starts `x (A) 2024-05-06 2024-01-10`. -/
theorem c2_complete_field_order_witness :
    ('A'.isUpper = true) ∧
      (Item.parse exLineC2 1).id = some exTargetC2 ∧
      markComplete exLineC2 [] exTargetC2 exToday =
        ⟨[], ('x' :: ' ' :: '(' :: 'A' :: ')' :: ' ' ::
          (exToday ++ ' ' :: ("2024-01-10 Call Mom +family id:x".toList))) ++ ['\n'],
          true⟩ :=
  ⟨by decide, by decide,
    c2_complete_field_order 'A' ("2024-01-10 Call Mom +family id:x".toList)
      exTargetC2 exToday (by decide) (by decide) (by decide) (by decide)⟩

/-! ## Claim C8 -/

theorem addMissingIds_eq (gen : Nat → List Char) (content : List Char) :
    addMissingIds gen content =
      if ((linesOf content).enum.any amChanges) then
        (joinNl ((linesOf content).enum.map (amLine gen)), true)
      else (content, false) := by
  unfold addMissingIds
  rw [amFold_eq]
  simp only [List.nil_append, Bool.false_or]

theorem amLine_blank_or_some {gen : Nat → List Char}
    (hg : ∀ n, ∀ c ∈ gen n, isWs c = false) (p : Nat × List Char) :
    isBlank (amLine gen p) = true ∨
      ((Item.parse (amLine gen p) (p.1 + 1)).id).isSome = true := by
  unfold amLine
  by_cases hb : isBlank p.2
  · left
    rw [if_pos hb]
    exact hb
  · right
    rw [if_neg hb]
    by_cases hid : (Item.parse p.2 (p.1 + 1)).id = none
    · rw [if_pos hid, parse_append_id (hg p.1)]
      rfl
    · rw [if_neg hid]
      exact Option.isSome_iff_ne_none.mpr hid

theorem amLine_no_nl {gen : Nat → List Char}
    (hg : ∀ n, ∀ c ∈ gen n, isWs c = false) {content : List Char}
    {p : Nat × List Char} (hp : p ∈ (linesOf content).enum) :
    '\n' ∉ amLine gen p := by
  have hpl : '\n' ∉ p.2 := mem_linesOf_not_nl (List.snd_mem_of_mem_enum hp)
  have hgn : '\n' ∉ gen p.1 := by
    intro h
    have := hg p.1 '\n' h
    exact absurd this (by decide)
  unfold amLine
  split
  · exact hpl
  · split
    · intro h
      rcases List.mem_append.mp h with h | h
      · exact hpl h
      simp only [List.mem_cons] at h
      rcases h with h | h
      · exact absurd h (by decide)
      rcases List.mem_append.mp h with h | h
      · rw [show idKey = ['i', 'd', ':'] from rfl] at h
        simp only [List.mem_cons, List.not_mem_nil, or_false] at h
        rcases h with h | h | h <;> exact absurd h (by decide)
      · exact hgn h
    · exact hpl

theorem linesOf_blank_or_some {gen : Nat → List Char}
    (hg : ∀ n, ∀ c ∈ gen n, isWs c = false) (content : List Char) :
    ∀ l ∈ linesOf (addMissingIds gen content).1,
      isBlank l = true ∨ ((Item.parse l 1).id).isSome = true := by
  intro l hl
  rw [addMissingIds_eq] at hl
  by_cases hany : ((linesOf content).enum.any amChanges) = true
  · rw [if_pos hany] at hl
    simp only at hl
    have hmem : l ∈ (linesOf content).enum.map (amLine gen) := by
      refine mem_linesOf_joinNl ?_ hl
      intro w hw
      obtain ⟨p, hp, hpe⟩ := List.mem_map.mp hw
      exact hpe ▸ amLine_no_nl hg hp
    obtain ⟨p, hp, hpe⟩ := List.mem_map.mp hmem
    rcases amLine_blank_or_some hg p with h | h
    · exact Or.inl (hpe ▸ h)
    · right
      rw [← hpe]
      rw [show (Item.parse (amLine gen p) 1).id =
        (Item.parse (amLine gen p) (p.1 + 1)).id from rfl]
      exact h
  · rw [if_neg hany] at hl
    simp only at hl
    obtain ⟨i, hi⟩ := List.mem_iff_get?.mp hl
    have hpe : (linesOf content).enum.get? i = some (i, l) := by
      rw [List.get?_enum, hi]
      rfl
    have hpm : (i, l) ∈ (linesOf content).enum := by
      rw [List.mem_iff_get?]
      exact ⟨i, hpe⟩
    have hch : amChanges (i, l) = false := by
      by_contra hc
      simp only [Bool.not_eq_false] at hc
      exact hany (List.any_eq_true.mpr ⟨(i, l), hpm, hc⟩)
    unfold amChanges at hch
    by_cases hb : isBlank l
    · exact Or.inl hb
    · right
      simp only [hb, Bool.not_false, Bool.true_and, decide_eq_false_iff_not] at hch
      rw [show (Item.parse l 1).id = (Item.parse l (i + 1)).id from rfl]
      exact Option.isSome_iff_ne_none.mpr hch

/-- C8: `add_missing_ids` is idempotent — a second run (with any fresh
supply) changes nothing and reports no modification; every line already
carrying an identifier is mapped to itself byte-for-byte; and a run that
modified nothing leaves the file content untouched. -/
theorem c8_ensure_ids_idempotent (gen gen2 : Nat → List Char)
    (content : List Char)
    (hg : ∀ n, ∀ c ∈ gen n, isWs c = false) :
    addMissingIds gen2 (addMissingIds gen content).1 =
      ((addMissingIds gen content).1, false) ∧
    (∀ i l, (linesOf content).get? i = some l → isBlank l = false →
      ((Item.parse l (i + 1)).id).isSome = true →
      ((linesOf content).enum.map (amLine gen)).get? i = some l) ∧
    ((addMissingIds gen content).2 = false →
      (addMissingIds gen content).1 = content) := by
  refine ⟨?_, ?_, ?_⟩
  · rw [addMissingIds_eq gen2]
    have hany : ((linesOf (addMissingIds gen content).1).enum.any amChanges)
        = false := by
      rw [List.any_eq_false]
      intro p hp
      have := linesOf_blank_or_some hg content p.2 (List.snd_mem_of_mem_enum hp)
      unfold amChanges
      rcases this with h | h
      · simp [h]
      · have : (Item.parse p.2 (p.1 + 1)).id ≠ none := by
          rw [show (Item.parse p.2 (p.1 + 1)).id = (Item.parse p.2 1).id from rfl]
          exact Option.isSome_iff_ne_none.mp h
        simp [this]
    rw [if_neg (by simp [hany])]
  · intro i l hi hb hs
    have he : (linesOf content).enum.get? i = some (i, l) := by
      rw [List.get?_enum, hi]
      rfl
    rw [List.get?_map, he]
    have : amLine gen (i, l) = l := by
      unfold amLine
      have hid : ¬ (Item.parse l (i + 1)).id = none :=
        Option.isSome_iff_ne_none.mp hs
      simp [hb, hid]
    simp [this]
  · intro hflag
    rw [addMissingIds_eq] at hflag ⊢
    by_cases hany : ((linesOf content).enum.any amChanges) = true
    · rw [if_pos hany] at hflag
      exact absurd hflag (by simp)
    · rw [if_neg hany]

/-- Witness for `c8_ensure_ids_idempotent` on content with a missing-id
line, a blank line, and an id-carrying line, with concrete supplies. -/
theorem c8_ensure_ids_idempotent_witness :
    (∀ n, ∀ c ∈ exGen1 n, isWs c = false) ∧
    addMissingIds exGen2 (addMissingIds exGen1 exContentC8).1 =
      ((addMissingIds exGen1 exContentC8).1, false) ∧
    ((linesOf exContentC8).get? 2 = some ("b id:e".toList) ∧
      ((linesOf exContentC8).enum.map (amLine exGen1)).get? 2 =
        some ("b id:e".toList)) := by
  have hg : ∀ n, ∀ c ∈ exGen1 n, isWs c = false := by
    intro n c hc
    simp [exGen1] at hc
    rcases hc with h | h <;> (subst h; decide)
  refine ⟨hg, (c8_ensure_ids_idempotent exGen1 exGen2 exContentC8 hg).1,
    by decide, ?_⟩
  exact (c8_ensure_ids_idempotent exGen1 exGen2 exContentC8 hg).2.1 2 _
    (by decide) (by decide) (by decide)

/-! ## Claim C5 -/

theorem char_toNat_lt (c : Char) : c.toNat < 1114112 := by
  have h := c.valid
  unfold UInt32.isValidChar Nat.isValidChar at h
  unfold Char.toNat
  rcases h with h | ⟨h1, h2⟩ <;> omega

theorem thenCmp_ne_gt (x y u v : Nat) :
    ((compare x y).then (compare u v) ≠ Ordering.gt) ↔
      (x < y ∨ (x = y ∧ u ≤ v)) := by
  rcases Nat.lt_trichotomy x y with h | h | h
  · rw [Nat.compare_eq_lt.mpr h]
    rw [show Ordering.lt.then (compare u v) = Ordering.lt from rfl]
    constructor
    · intro _
      exact Or.inl h
    · intro _ hc
      exact absurd hc (by decide)
  · subst h
    rw [Nat.compare_eq_eq.mpr rfl]
    rw [show Ordering.eq.then (compare u v) = compare u v from rfl]
    constructor
    · intro hne
      refine Or.inr ⟨rfl, ?_⟩
      by_contra hlt
      exact hne (Nat.compare_eq_gt.mpr (by omega))
    · rintro (h | ⟨-, hle⟩)
      · omega
      · intro hgt
        have := Nat.compare_eq_gt.mp hgt
        omega
  · rw [Nat.compare_eq_gt.mpr h]
    rw [show Ordering.gt.then (compare u v) = Ordering.gt from rfl]
    constructor
    · intro hne
      exact absurd rfl hne
    · intro hor
      exfalso
      omega

theorem priKey_some (c : Char) : priKey (some c) = c.toNat := rfl

theorem priKey_none : priKey none = 1114112 := rfl

theorem itemLe_iff (a b : Item) : itemLe a b ↔ claimOrder a b := by
  unfold itemLe itemCmp claimOrder
  cases ha : a.priority with
  | none =>
    cases hb : b.priority with
    | none =>
      simp only [priKey_none]
      rw [thenCmp_ne_gt]
      constructor
      · rintro (h | ⟨h1, h2⟩)
        · exact Or.inr ⟨trivial, by omega⟩
        · exact Or.inr ⟨trivial, h2⟩
      · rintro (h | ⟨-, h⟩)
        · omega
        · omega
    | some p2 =>
      have hp2 := char_toNat_lt p2
      simp only [priKey_none, priKey_some]
      rw [show Ordering.gt.then (compare a.line_number b.line_number)
        = Ordering.gt from rfl]
      constructor
      · intro hne
        exact absurd rfl hne
      · intro hor
        exfalso
        omega
  | some p1 =>
    cases hb : b.priority with
    | none =>
      have hp1 := char_toNat_lt p1
      simp only [priKey_none, priKey_some]
      rw [show Ordering.lt.then (compare a.line_number b.line_number)
        = Ordering.lt from rfl]
      constructor
      · intro _
        exact Or.inl hp1
      · intro _ hc
        exact absurd hc (by decide)
    | some p2 =>
      simp only [priKey_some]
      rw [thenCmp_ne_gt]

instance : IsTotal Item itemLe := by
  constructor
  intro a b
  rw [itemLe_iff, itemLe_iff]
  unfold claimOrder
  omega

instance : IsTrans Item itemLe := by
  constructor
  intro a b c hab hbc
  rw [itemLe_iff] at *
  unfold claimOrder at *
  omega

/-- C5: `load` sorts the parsed records so that priority classes come in
increasing code-point order with no-priority last (`priKey`), and records
within one class come in ascending line-number order; the output is a
permutation of the parsed records; and on `"(B) t2\n(A) t1\nt3"` the
order is `t1 (A), t2 (B), t3 (none)`. -/
theorem c5_load_sorted (c : List Char) :
    List.Sorted claimOrder (loadTodos c) ∧
    List.Perm (loadTodos c) (parsedItems c) ∧
    (loadTodos exContentC5).map
        (fun i => (i.description, i.priority, i.line_number)) =
      [("t1".toList, some 'A', 2), ("t2".toList, some 'B', 1),
        ("t3".toList, none, 3)] := by
  refine ⟨?_, ?_, by decide⟩
  · have h := List.sorted_insertionSort itemLe (parsedItems c)
    exact h.imp (fun hab => (itemLe_iff _ _).mp hab)
  · exact List.perm_insertionSort itemLe (parsedItems c)

/-! ## Claim C4 -/

theorem find?_map_pair {α : Type} (f : List Char → α) :
    ∀ (ns : List (List Char)) (nm : List Char), nm ∈ ns →
      (ns.map (fun n => (n, f n))).find? (fun p => p.1 = nm) = some (nm, f nm) := by
  intro ns
  induction ns with
  | nil =>
    intro nm h
    simp at h
  | cons n ns' ih =>
    intro nm h
    by_cases he : n = nm
    · subst he
      simp [List.find?_cons_of_pos]
    · rw [List.map_cons, List.find?_cons_of_neg _ (by simp [he])]
      rcases List.mem_cons.mp h with h1 | h1
      · exact absurd h1.symm he
      · exact ih nm h1

theorem lookupGroup_groupedAssoc {todos : List Item} {nm : List Char}
    (h : nm ∈ groupNames todos) :
    lookupGroup (groupedAssocOf todos) nm = some (groupOf todos nm) := by
  unfold lookupGroup groupedAssocOf
  rw [find?_map_pair (fun n => groupOf todos n) _ nm h]
  rfl

theorem groupOf_ne_nil {todos : List Item} {nm : List Char}
    (h : nm ∈ groupNames todos) : groupOf todos nm ≠ [] := by
  unfold groupNames at h
  have h2 := List.mem_dedup.mp h
  obtain ⟨l, hl, hnl⟩ := List.mem_flatten.mp h2
  obtain ⟨t, ht, hte⟩ := List.mem_map.mp hl
  intro hc
  unfold groupOf at hc
  rw [List.flatten_eq_nil_iff] at hc
  have := hc ((((effTags t).filter (fun p => p = nm)).map (fun _ => t)))
    (List.mem_map.mpr ⟨t, ht, rfl⟩)
  rw [List.map_eq_nil_iff, List.filter_eq_nil_iff] at this
  exact this nm (hte ▸ hnl) (by simp)

theorem effTags_ne_nil (t : Item) : effTags t ≠ [] := by
  unfold effTags
  split <;> simp_all

theorem sortedNames_mem {todos : List Item} {nm : List Char} :
    nm ∈ sortedNames todos ↔ nm ∈ groupNames todos :=
  (List.perm_insertionSort _ _).mem_iff

theorem sortedNames_ne_nil {todos : List Item} (h : todos ≠ []) :
    sortedNames todos ≠ [] := by
  cases todos with
  | nil => exact absurd rfl h
  | cons t ts =>
    intro hc
    have h2 : ∃ nm, nm ∈ groupNames (t :: ts) := by
      obtain ⟨nm, hnm⟩ := List.exists_mem_of_ne_nil _ (effTags_ne_nil t)
      refine ⟨nm, ?_⟩
      unfold groupNames
      rw [List.mem_dedup]
      exact List.mem_flatten.mpr
        ⟨effTags t, List.mem_map.mpr ⟨t, by simp, rfl⟩, hnm⟩
    obtain ⟨nm, hnm⟩ := h2
    have := sortedNames_mem.mpr hnm
    rw [hc] at this
    simp at this

theorem selectFocus_fields (s : NavState) :
    (selectFocus s).1.projectNames = s.projectNames ∧
    (selectFocus s).1.claudeEnabled = s.claudeEnabled ∧
    (selectFocus s).1.currentColumn = s.currentColumn ∧
    (selectFocus s).1.todos = s.todos := by
  unfold selectFocus
  split
  · exact ⟨rfl, rfl, rfl, rfl⟩
  · split
    · exact ⟨rfl, rfl, rfl, rfl⟩
    · split <;> (dsimp only; split <;> exact ⟨rfl, rfl, rfl, rfl⟩)

theorem clampColumn_currentColumn (s : NavState) :
    (clampColumn s).currentColumn =
      if totalColumns s ≤ s.currentColumn then totalColumns s - 1
      else s.currentColumn := by
  unfold clampColumn
  split <;> rfl

theorem clampColumn_projectNames (s : NavState) :
    (clampColumn s).projectNames = s.projectNames := by
  unfold clampColumn
  split <;> rfl

theorem clampColumn_claudeEnabled (s : NavState) :
    (clampColumn s).claudeEnabled = s.claudeEnabled := by
  unfold clampColumn
  split <;> rfl

theorem clampColumn_grouped (s : NavState) :
    (clampColumn s).grouped = s.grouped := by
  unfold clampColumn
  split <;> rfl

theorem uds_currentColumn (s : NavState) :
    (updateDerivedState s).1.currentColumn =
      (if (sortedNames s.todos).length + (if s.claudeEnabled then 1 else 0)
          ≤ s.currentColumn
       then (sortedNames s.todos).length
          + (if s.claudeEnabled then 1 else 0) - 1
       else s.currentColumn) := by
  unfold updateDerivedState
  rw [(selectFocus_fields _).2.2.1, clampColumn_currentColumn]
  rfl

theorem uds_projectNames (s : NavState) :
    (updateDerivedState s).1.projectNames = sortedNames s.todos := by
  unfold updateDerivedState
  rw [(selectFocus_fields _).1, clampColumn_projectNames]
  rfl

theorem uds_claudeEnabled (s : NavState) :
    (updateDerivedState s).1.claudeEnabled = s.claudeEnabled := by
  unfold updateDerivedState
  rw [(selectFocus_fields _).2.1, clampColumn_claudeEnabled]
  rfl

theorem uds_selected_lt (s : NavState) (nm : List Char)
    (hnm : (sortedNames s.todos).get?
      ((updateDerivedState s).1.currentColumn) = some nm) :
    (updateDerivedState s).1.selectedInColumn
      < (groupOf s.todos nm).length := by
  have hcc : (updateDerivedState s).1.currentColumn
      = (clampColumn (rebuildDerived s)).currentColumn :=
    (selectFocus_fields _).2.2.1
  rw [hcc] at hnm
  have hpn : (clampColumn (rebuildDerived s)).projectNames
      = sortedNames s.todos := clampColumn_projectNames _
  have hgr : (clampColumn (rebuildDerived s)).grouped
      = groupedAssocOf s.todos := clampColumn_grouped _
  have hm : (clampColumn (rebuildDerived s)).projectNames.get?
      ((clampColumn (rebuildDerived s)).currentColumn) = some nm := by
    rw [hpn]
    exact hnm
  have hmem : nm ∈ groupNames s.todos := by
    rw [← sortedNames_mem]
    exact List.get?_mem hnm
  have hlk : lookupGroup (clampColumn (rebuildDerived s)).grouped nm
      = some (groupOf s.todos nm) := by
    rw [hgr]
    exact lookupGroup_groupedAssoc hmem
  have hlen : 0 < (groupOf s.todos nm).length :=
    List.length_pos.mpr (groupOf_ne_nil hmem)
  unfold updateDerivedState selectFocus
  simp only [hm, hlk]
  by_cases hsel : (groupOf s.todos nm).length
      ≤ (clampColumn (rebuildDerived s)).selectedInColumn
  · simp only [if_pos hsel]
    split <;> (simp only; omega)
  · simp only [if_neg hsel]
    split <;> (simp only; omega)

/-- C4: after reconciliation the column index is strictly below the total
column count whenever the record set is non-empty; whenever the active
column is an ordinary record column, the row index is strictly below that
column's length; and an empty record set reconciles to column 0 (the
function is total, so no out-of-bounds access or panic is possible). -/
theorem c4_reconcile_bounds (s : NavState) :
    (s.todos ≠ [] →
      (updateDerivedState s).1.currentColumn
        < totalColumns (updateDerivedState s).1) ∧
    (∀ nm, (sortedNames s.todos).get?
        ((updateDerivedState s).1.currentColumn) = some nm →
      (updateDerivedState s).1.selectedInColumn
        < (groupOf s.todos nm).length) ∧
    (s.todos = [] → (updateDerivedState s).1.currentColumn = 0) := by
  have htot : totalColumns (updateDerivedState s).1 =
      (sortedNames s.todos).length + (if s.claudeEnabled then 1 else 0) := by
    unfold totalColumns
    rw [uds_projectNames, uds_claudeEnabled]
  refine ⟨?_, fun nm hnm => uds_selected_lt s nm hnm, ?_⟩
  · intro hne
    have hlen : 0 < (sortedNames s.todos).length :=
      List.length_pos.mpr (sortedNames_ne_nil hne)
    rw [htot, uds_currentColumn]
    by_cases hc : (sortedNames s.todos).length
        + (if s.claudeEnabled then 1 else 0) ≤ s.currentColumn
    · rw [if_pos hc]
      omega
    · rw [if_neg hc]
      omega
  · intro hnil
    have hsn : sortedNames s.todos = [] := by
      rw [hnil]
      rfl
    rw [uds_currentColumn, hsn]
    simp only [List.length_nil, Nat.zero_add]
    cases hcl : s.claudeEnabled with
    | false =>
      simp only [Bool.false_eq_true, if_false]
      rw [if_pos (Nat.zero_le _)]
    | true =>
      simp only [if_true]
      by_cases hcc : 1 ≤ s.currentColumn
      · rw [if_pos hcc]
      · rw [if_neg hcc]
        omega

/-- Witness for `c4_reconcile_bounds` on a dangling state
(`current_column = 999`, `selected_row = 999`) over one record. -/
theorem c4_reconcile_bounds_witness :
    exNavC4.todos ≠ [] ∧
    (updateDerivedState exNavC4).1.currentColumn
      < totalColumns (updateDerivedState exNavC4).1 ∧
    ((sortedNames exNavC4.todos).get?
        ((updateDerivedState exNavC4).1.currentColumn) = some exNameWork ∧
      (updateDerivedState exNavC4).1.selectedInColumn
        < (groupOf exNavC4.todos exNameWork).length) :=
  ⟨by decide, (c4_reconcile_bounds exNavC4).1 (by decide), by decide,
    (c4_reconcile_bounds exNavC4).2.1 exNameWork (by decide)⟩

/-! ## Claim C9 -/

/-- C9, counterexample: in a state on the monitor column with an active
preview and remembered row 1, a prev-column move whose destination is the
ordinary project column leaves `selected_in_column` at 1 (not 0) and, the
retained row being out of range, issues no focus call either —
contradicting the claim that `selected_row` is reset to 0 and a focus RPC
call is issued in this case. -/
theorem c9_prev_column_counterexample :
    (0 < exNavC9.currentColumn) ∧
    isOnClaudeColumn
      { exNavC9 with currentColumn := exNavC9.currentColumn - 1 } = false ∧
    isOnClaudeColumn exNavC9 = true ∧
    exNavC9.previewActive = true ∧
    (handleNavH exNavC9).1.selectedInColumn = 1 ∧
    (handleNavH exNavC9).2 = none := by
  exact ⟨by decide, by decide, by decide, by decide, by decide, by decide⟩

/-- C9 (amended): after a prev-column input from `current_column > 0`
whose destination is not the monitor column, the focus RPC target is the
identifier of the record under the resulting selection (so a focus call
is issued exactly when that record exists and carries one); the row is
reset to 0 — except when the column being left is the monitor column with
an active preview, in which case the preview is torn down and the row
keeps its previous value. -/
theorem c9_prev_column (s : NavState)
    (h1 : 0 < s.currentColumn)
    (h2 : isOnClaudeColumn
      { s with currentColumn := s.currentColumn - 1 } = false) :
    ((isOnClaudeColumn s = true ∧ s.previewActive = true) →
      (handleNavH s).1.selectedInColumn = s.selectedInColumn ∧
      (handleNavH s).1.previewActive = false ∧
      (handleNavH s).2 = getCurrentTodoId (handleNavH s).1) ∧
    (¬(isOnClaudeColumn s = true ∧ s.previewActive = true) →
      (handleNavH s).1.selectedInColumn = 0 ∧
      (handleNavH s).2 = getCurrentTodoId (handleNavH s).1) := by
  unfold handleNavH
  rw [if_pos h1]
  dsimp only
  rw [h2]
  simp only [Bool.false_eq_true, if_false]
  cases hb : (isOnClaudeColumn s && s.previewActive) with
  | true =>
    simp only [if_true]
    rw [Bool.and_eq_true] at hb
    constructor
    · intro _
      unfold leavePreviewMode
      simp
    · intro hn
      exact absurd hb hn
  | false =>
    simp only [Bool.false_eq_true, if_false]
    constructor
    · intro hy
      rw [← Bool.and_eq_true] at hy
      rw [hy] at hb
      exact absurd hb (by decide)
    · intro _
      simp

/-- Witness for `c9_prev_column`: an ordinary-to-ordinary prev-column
move resets the row to 0 and focuses the record under the new
selection. -/
theorem c9_prev_column_witness :
    (0 < exNavC9w.currentColumn) ∧
    isOnClaudeColumn
      { exNavC9w with currentColumn := exNavC9w.currentColumn - 1 } = false ∧
    ¬(isOnClaudeColumn exNavC9w = true ∧ exNavC9w.previewActive = true) ∧
    ((handleNavH exNavC9w).1.selectedInColumn = 0 ∧
      (handleNavH exNavC9w).2 = getCurrentTodoId (handleNavH exNavC9w).1) :=
  ⟨by decide, by decide, by decide,
    (c9_prev_column exNavC9w (by decide) (by decide)).2 (by decide)⟩

/-! ## Claim C6 -/

/-- C6, counterexample: a reload is performed at t=1000; a second
modification batch drained at t=1050 is within the debounce interval, so
no reload is performed and the handler state keeps only the last reload
time — nothing records a pending reload; a later tick at t=1300 (past the
interval) with an empty batch performs no reload either.  The debounced
reload is therefore discarded, never deferred to a later tick. -/
theorem c6_defer_counterexample :
    handleFileWatcherEvents none [exModEvent] exTodoName 1000
      = (some 1000, true) ∧
    handleFileWatcherEvents (some 1000) [exModEvent] exTodoName 1050
      = (some 1000, false) ∧
    handleFileWatcherEvents (some 1000) [] exTodoName 1300
      = (some 1000, false) := by
  exact ⟨by decide, by decide, by decide⟩

/-- C6 (amended): one polling tick performs a reload iff its own drained
batch contains a modification event of the tracked file and the debounce
interval has elapsed since the last performed reload (or none was ever
performed); a tick that performs no reload leaves the handler state
unchanged, so a debounced-away pending reload is discarded rather than
deferred, and one that performs records the tick time. -/
theorem c6_debounce (last : Option Nat) (events : List FsEvent)
    (todoName : List Char) (now : Nat) :
    ((handleFileWatcherEvents last events todoName now).2 = true ↔
      (events.any (flagsReload todoName) = true ∧
        (last = none ∨ ∃ t, last = some t ∧ debounceMs ≤ now - t))) ∧
    ((handleFileWatcherEvents last events todoName now).2 = false →
      (handleFileWatcherEvents last events todoName now).1 = last) ∧
    ((handleFileWatcherEvents last events todoName now).2 = true →
      (handleFileWatcherEvents last events todoName now).1 = some now) := by
  unfold handleFileWatcherEvents
  cases hs : events.any (flagsReload todoName) with
  | false =>
    simp only [Bool.false_eq_true, if_false]
    refine ⟨by simp, by simp, by simp⟩
  | true =>
    simp only [if_true]
    cases last with
    | none =>
      dsimp only
      refine ⟨by simp, by simp, by simp⟩
    | some t =>
      dsimp only
      by_cases hd : debounceMs ≤ now - t
      · have hd2 : decide (debounceMs ≤ now - t) = true := by simp [hd]
        simp only [hd2, if_true]
        refine ⟨by simp [hd], by simp, by simp⟩
      · have hd2 : decide (debounceMs ≤ now - t) = false := by simp [hd]
        simp only [hd2, Bool.false_eq_true, if_false]
        refine ⟨by simp [hd], by simp, by simp⟩

end Torudo
